import Mathlib

/-!
Shallow embedding of the `vbchart` vertical bar chart renderer
(`vbchart/__init__.py`) and proofs about its specification.

Strings are modelled as `List Char`, Python floats as `ℚ`, Python ints as
`ℤ`.  The index-based scanning loops of `AnsiHelp.truncate_visible` and
`VerticalBarChart._visible_len` are rendered as structurally recursive
state machines: the extra `Bool` / pending-buffer argument is the loop's
program counter (outside vs. inside an `ESC [ ... m` sequence).
-/

set_option maxRecDepth 4000

/-- State-machine form of `VerticalBarChart._visible_len`'s scan loop.
`inSgr = false`: normal scanning; an `ESC` directly followed by `'['`
enters SGR-skipping mode, any other character (including a lone `ESC`)
counts as one visible character.  `inSgr = true`: characters are consumed
without counting until the closing `'m'`; if the input ends first, the
remainder contributes nothing (Python's inner `while` runs `i` past the
end). -/
def visLenAux : Bool → List Char → ℕ
  | _, [] => 0
  | true, c :: rest => if c = 'm' then visLenAux false rest else visLenAux true rest
  | false, '\x1b' :: '[' :: rest => visLenAux true rest
  | false, _ :: rest => 1 + visLenAux false rest

/-- `VerticalBarChart._visible_len`: visible width, skipping SGR escapes. -/
def visible_len (s : List Char) : ℕ := visLenAux false s

/-- State-machine form of `AnsiHelp.truncate_visible`'s loop.  The first
argument is the mode: `none` = normal copying (budget in the last
argument counts remaining visible columns); `some pending` = inside an
escape sequence whose characters seen so far are `pending` (Python copies
the slice `s[i:j]` only once the closing `'m'` is found, so the pending
characters are dropped when the input ends first — the "malformed escape;
stop safely" branch). -/
def truncAux : Option (List Char) → List Char → ℕ → List Char
  | _, [], _ => []
  | none, _ :: _, 0 => []
  | none, '\x1b' :: '[' :: rest, b + 1 => truncAux (some ['\x1b', '[']) rest (b + 1)
  | none, c :: rest, b + 1 => c :: truncAux none rest b
  | some pending, c :: rest, b =>
      if c = 'm' then pending ++ 'm' :: truncAux none rest b
      else truncAux (some (pending ++ [c])) rest b

/-- `AnsiHelp.truncate_visible`: truncate to `max_cols` visible
characters, never splitting an escape code; `max_cols <= 0` yields
the empty string. -/
def truncate_visible (s : List Char) (max_cols : ℤ) : List Char :=
  if max_cols ≤ 0 then [] else truncAux none s max_cols.toNat

/-- A text contains no truncated/partial SGR escape sequence: every
`ESC [` opener is eventually closed by `'m'` (scanning exactly as the
code's scanners do). -/
def wfAux : Bool → List Char → Bool
  | true, [] => false
  | true, c :: rest => if c = 'm' then wfAux false rest else wfAux true rest
  | false, [] => true
  | false, '\x1b' :: '[' :: rest => wfAux true rest
  | false, _ :: rest => wfAux false rest

/-- Well-formedness of a text w.r.t. SGR escapes (no dangling `ESC [`). -/
def esc_wf (s : List Char) : Bool := wfAux false s

/-- Strict well-formedness: every `ESC` opens a complete `ESC [ ... m`
sequence (no lone `ESC` at all).  This is the shape of every line the
renderer produces, and it makes `visible_len` additive under append. -/
def cleanAux : Bool → List Char → Bool
  | true, [] => false
  | true, c :: rest => if c = 'm' then cleanAux false rest else cleanAux true rest
  | false, [] => true
  | false, '\x1b' :: '[' :: rest => cleanAux true rest
  | false, '\x1b' :: _ => false
  | false, _ :: rest => cleanAux false rest

/-- Strict SGR well-formedness of a whole text. -/
def esc_clean (s : List Char) : Bool := cleanAux false s

/-- `AnsiHelp._sgr_wrap`: wrap text in ANSI SGR escape codes;
a `None` or empty parameter string (falsy in Python) leaves the text
unchanged. -/
def sgr_wrap (sgr : Option (List Char)) (text : List Char) : List Char :=
  match sgr with
  | none => text
  | some [] => text
  | some p => '\x1b' :: '[' :: (p ++ 'm' :: (text ++ ['\x1b', '[', '0', 'm']))

/-- Context handed to the per-cell color callback (`_style_cell`'s named
arguments). -/
structure CellCtx where
  value_left : ℚ
  value_right : ℚ
  pct_left : ℚ
  pct_right : ℚ
  row_kind : List Char
  row : ℕ
  glyph : Char

/-- The `VerticalBarChart` dataclass together with its styling state.
Python floats are `ℚ`, strings are `List Char`.  The printf-style label
template `y_label_fmt` is modelled as the function `v ↦ fmt % v` (the
percent-formatting operator of the Python standard library is taken as
an opaque external collaborator), `None` as `none`. -/
structure Chart where
  values : List ℚ
  title : Option (List Char) := none
  width : Option ℤ := none
  max_value : Option ℚ := none
  clamp_to_100 : Bool := true
  show_y_axis : Bool := true
  show_rule : Bool := true
  unicode : Bool := true
  y_label_fmt : Option (ℚ → List Char) := none
  border_enabled : Bool := false
  border_sgr : Option (List Char) := none
  border_style_name : List Char := "single".data
  label_sgr : Option (List Char) := none
  axis_sgr : Option (List Char) := none
  bar_sgr : Option (List Char) := none
  value_color_cb : Option (CellCtx → Option (List Char)) := none

/-- `VerticalBarChart._term_cols`: the explicit width if supplied,
otherwise the terminal query result `envCols` (the
`get_terminal_size(fallback=(80, 24)).columns` value), both floored
to 20. -/
def term_cols (c : Chart) (envCols : ℤ) : ℤ :=
  match c.width with
  | some w => max 20 w
  | none => max 20 envCols

/-- `VerticalBarChart._clamp_int`. -/
def clamp_int (x lo hi : ℤ) : ℤ :=
  if x < lo then lo else if hi < x then hi else x

/-- Python's builtin `round` on a rational: nearest integer, ties to
even (banker's rounding). -/
def pyRound (q : ℚ) : ℤ :=
  let f := ⌊q⌋
  let r := q - (f : ℚ)
  if r < 1 / 2 then f
  else if 1 / 2 < r then f + 1
  else if f % 2 = 0 then f else f + 1

/-- `VerticalBarChart._to_signed_steps_5pct`: value → signed 5%-steps. -/
def to_signed_steps_5pct (c : Chart) (value denom : ℚ) : ℤ :=
  if denom ≤ 0 then 0
  else
    let pct := value / denom * 100
    let pct2 := if c.clamp_to_100 then max (-100) (min 100 pct) else pct
    clamp_int (pyRound (pct2 / 5)) (-20) 20

/-- `VerticalBarChart._glyph_pos`: bottom-filled glyph table keyed by the
two per-side bands; outside the dict's domain (never reached: both call
sites clamp the bands to `[0, 2]`) the lookup raises `KeyError`, marked
here by the sentinel `'?'` which appears in neither table. -/
def glyph_pos (c : Chart) (l r : ℤ) : Char :=
  if c.unicode = false then
    if l > 0 ∧ r > 0 then '#'
    else if l > 0 then 'L'
    else if r > 0 then 'R'
    else ' '
  else
    match l, r with
    | 0, 0 => ' '
    | 0, 1 => '▗'
    | 0, 2 => '▐'
    | 1, 0 => '▖'
    | 1, 1 => '▄'
    | 1, 2 => '▟'
    | 2, 0 => '▌'
    | 2, 1 => '▙'
    | 2, 2 => '█'
    | _, _ => '?'

/-- `VerticalBarChart._glyph_neg`: top-filled glyph table (same ASCII
fallback and the same out-of-domain sentinel as `glyph_pos`). -/
def glyph_neg (c : Chart) (l r : ℤ) : Char :=
  if c.unicode = false then
    if l > 0 ∧ r > 0 then '#'
    else if l > 0 then 'L'
    else if r > 0 then 'R'
    else ' '
  else
    match l, r with
    | 0, 0 => ' '
    | 0, 1 => '▝'
    | 0, 2 => '▐'
    | 1, 0 => '▘'
    | 1, 1 => '▀'
    | 1, 2 => '▜'
    | 2, 0 => '▌'
    | 2, 1 => '▛'
    | 2, 2 => '█'
    | _, _ => '?'

/-- Python truncation toward zero, as used by the `%d` printf conversion
on a float. -/
def pyTrunc (q : ℚ) : ℤ := if 0 ≤ q then ⌊q⌋ else ⌈q⌉

/-- The built-in default forced-scale template `'%+d '` applied to a
value: always-signed truncated decimal followed by one space. -/
def fmt_plus_d (v : ℚ) : List Char :=
  let n := pyTrunc v
  (if 0 ≤ n then '+' :: (toString n).data else (toString n).data) ++ [' ']

/-- `VerticalBarChart._default_forced_fmt`. -/
def default_forced_fmt (c : Chart) : ℚ → List Char :=
  match c.y_label_fmt with
  | some fmt => fmt
  | none => fmt_plus_d

/-- Python `str.rjust`: pad on the left with spaces up to width `w`. -/
def rjust (w : ℕ) (s : List Char) : List Char :=
  List.replicate (w - s.length) ' ' ++ s

/-- `VerticalBarChart._render_y_label`.  `kind` is one of the strings
`'pos' | 'neg' | 'zero'`; percent-scale labels use
`f'{sign * row * 10:>3}% '`, forced-scale labels apply the template to
`sign * denom * row / 10`. -/
def render_y_label (c : Chart) (kind : List Char) (row : ℕ) (denom : ℚ)
    (forced : Bool) : List Char :=
  if forced = false then
    if kind = "zero".data then "  0% ".data
    else
      let sign : ℤ := if kind = "pos".data then 1 else -1
      rjust 3 (toString (sign * row * 10)).data ++ "% ".data
  else
    let fmt := default_forced_fmt c
    if kind = "zero".data then fmt 0
    else
      let sign : ℚ := if kind = "pos".data then 1 else -1
      fmt (sign * (denom * row / 10))

/-- `VerticalBarChart._style_cell`: the color callback, when present,
wins; otherwise the default bar SGR is used. -/
def style_cell (c : Chart) (glyph : Char) (value_left value_right : ℚ)
    (denom : ℚ) (row_kind : List Char) (row : ℕ) : List Char :=
  match c.value_color_cb with
  | some cb =>
      let pct_left := if denom ≠ 0 then value_left / denom else 0
      let pct_right := if denom ≠ 0 then value_right / denom else 0
      sgr_wrap (cb ⟨value_left, value_right, pct_left, pct_right, row_kind, row, glyph⟩) [glyph]
  | none => sgr_wrap c.bar_sgr [glyph]

/-- The six frame glyphs of one border charset. -/
structure BorderChars where
  tl : Char
  tr : Char
  bl : Char
  br : Char
  h : Char
  v : Char

/-- `VerticalBarChart._border_chars`. -/
def border_chars (name : List Char) : BorderChars :=
  if name = "double".data then ⟨'╔', '╗', '╚', '╝', '═', '║'⟩
  else if name = "ascii".data then ⟨'+', '+', '+', '+', '-', '|'⟩
  else ⟨'┌', '┐', '└', '┘', '─', '│'⟩

/-- `VerticalBarChart._add_border`.  `content_w` is the maximum visible
length over the (non-empty) line list, written as a `foldl max 0`
since all visible lengths are naturals. -/
def add_border (enabled : Bool) (sgr : Option (List Char))
    (styleName : List Char) (lines : List (List Char)) : List (List Char) :=
  if enabled = false ∨ lines = [] then lines
  else
    let cs := border_chars styleName
    let content_w := (lines.map visible_len).foldl max 0
    let top := sgr_wrap sgr (cs.tl :: (List.replicate (content_w + 2) cs.h ++ [cs.tr]))
    let bot := sgr_wrap sgr (cs.bl :: (List.replicate (content_w + 2) cs.h ++ [cs.br]))
    let v := sgr_wrap sgr [cs.v]
    top ::
      (lines.map fun ln =>
        v ++ ' ' :: (ln ++ (List.replicate (content_w - visible_len ln) ' ' ++ ' ' :: v)))
      ++ [bot]

/-- The sequential packing loop of `__str__`: `(v0,v1), (v2,v3), ...`,
padding the final right value of an odd-length input with `0.0`. -/
def pack_pairs : List ℚ → List ℚ × List ℚ
  | [] => ([], [])
  | [a] => ([a], [0])
  | a :: b :: rest =>
      let p := pack_pairs rest
      (a :: p.1, b :: p.2)

/-- The `max_neg_steps` accumulation loop of `__str__`: the largest
magnitude among the negative steps (0 when none is negative). -/
def max_neg_steps (steps : List ℤ) : ℤ :=
  steps.foldl (fun acc s => if s < 0 then max acc (-s) else acc) 0

/-- `neg_rows = int(math.ceil(max_neg_steps / 2.0))`; since
`max_neg_steps ≥ 0`, the ceiling is the integer `(m + 1) / 2`. -/
def neg_rows_count (steps : List ℤ) : ℕ :=
  ((max_neg_steps steps + 1) / 2).toNat

/-- The denominator resolution of `__str__`: explicit `max_value` if
supplied, else the maximum absolute input value, floored to `1.0` when
non-positive. -/
def maxAbs (vals : List ℚ) : ℚ :=
  vals.foldl (fun a v => max a |v|) 0

/-- Resolve the scale denominator (`__str__`, first lines). -/
def resolve_denom (mv : Option ℚ) (vals : List ℚ) : ℚ :=
  let denom := match mv with
    | some m => m
    | none => maxAbs vals
  if denom ≤ 0 then 1 else denom

/-- Visible-row list 10, 9, ..., 1 (`range(10, 0, -1)`). -/
def rows_down : List ℕ := (List.range 10).map (fun i => 10 - i)

/-- Per-cell band-and-glyph computation of a positive row (`__str__`,
positive region loop body): positive part of each step, minus the steps
below this row, clamped to a 0..2 band, looked up in the bottom-filled
table. -/
def pos_cell_glyph (c : Chart) (ls rs : ℤ) (row : ℕ) : Char :=
  let steps_below : ℤ := ((row : ℤ) - 1) * 2
  let lmag := if ls > 0 then ls else 0
  let rmag := if rs > 0 then rs else 0
  glyph_pos c (clamp_int (lmag - steps_below) 0 2) (clamp_int (rmag - steps_below) 0 2)

/-- Per-cell band-and-glyph computation of a negative row (`__str__`,
negative region loop body). -/
def neg_cell_glyph (c : Chart) (ls rs : ℤ) (row : ℕ) : Char :=
  let steps_below : ℤ := ((row : ℤ) - 1) * 2
  let lmag := if ls < 0 then -ls else 0
  let rmag := if rs < 0 then -rs else 0
  glyph_neg c (clamp_int (lmag - steps_below) 0 2) (clamp_int (rmag - steps_below) 0 2)

/-- `zip` of the four per-column lists (`zip(left_vals, right_vals,
left_steps_total, right_steps_total)`); Python's `zip` stops at the
shortest list. -/
def zip4 : List ℚ → List ℚ → List ℤ → List ℤ → List (ℚ × ℚ × ℤ × ℤ)
  | lv :: lvs, rv :: rvs, ls :: lss, rs :: rss =>
      (lv, rv, ls, rs) :: zip4 lvs rvs lss rss
  | _, _, _, _ => []

/-- One positive row of the chart body, truncated to the column count. -/
def pos_row_line (c : Chart) (denom : ℚ) (forced : Bool) (y_w : ℕ)
    (cols : ℤ) (quads : List (ℚ × ℚ × ℤ × ℤ)) (row : ℕ) : List Char :=
  let lbl :=
    if c.show_y_axis then
      sgr_wrap c.label_sgr (rjust y_w (render_y_label c "pos".data row denom forced))
    else []
  let cells :=
    (quads.map fun q =>
      match q with
      | (lv, rv, ls, rs) =>
          style_cell c (pos_cell_glyph c ls rs row) lv rv denom "pos".data row).flatten
  truncate_visible (lbl ++ cells) cols

/-- One negative row of the chart body, truncated to the column count. -/
def neg_row_line (c : Chart) (denom : ℚ) (forced : Bool) (y_w : ℕ)
    (cols : ℤ) (quads : List (ℚ × ℚ × ℤ × ℤ)) (row : ℕ) : List Char :=
  let lbl :=
    if c.show_y_axis then
      sgr_wrap c.label_sgr (rjust y_w (render_y_label c "neg".data row denom forced))
    else []
  let cells :=
    (quads.map fun q =>
      match q with
      | (lv, rv, ls, rs) =>
          style_cell c (neg_cell_glyph c ls rs row) lv rv denom "neg".data row).flatten
  truncate_visible (lbl ++ cells) cols

/-- The y-axis width computation of `__str__`: the maximum raw length
over every label that will be rendered, or 0 with the axis hidden. -/
def y_axis_width (c : Chart) (denom : ℚ) (negRows : ℕ) (forced : Bool) : ℕ :=
  if c.show_y_axis then
    let labels :=
      rows_down.map (fun r => render_y_label c "pos".data r denom forced) ++
      (if negRows > 0 then
        render_y_label c "zero".data 0 denom forced ::
          (List.range negRows).map (fun i => render_y_label c "neg".data (i + 1) denom forced)
      else [])
    (labels.map List.length).foldl max 0
  else 0

/-- `VerticalBarChart.__str__`: the full rendering pipeline.  `envCols`
is the terminal-size query result used when no explicit width is set. -/
def render (c : Chart) (envCols : ℤ) : List Char :=
  if c.values = [] then "(no data)".data
  else
    let vals := c.values
    let cols := term_cols c envCols
    let denom := resolve_denom c.max_value vals
    let packed := pack_pairs vals
    let left_steps0 := packed.1.map fun v => to_signed_steps_5pct c v denom
    let right_steps0 := packed.2.map fun v => to_signed_steps_5pct c v denom
    let negRows := neg_rows_count (left_steps0 ++ right_steps0)
    let forced := c.max_value.isSome || c.y_label_fmt.isSome
    let y_w := y_axis_width c denom negRows forced
    let maxColsFit := (max 1 (cols - (y_w : ℤ))).toNat
    let left_vals := packed.1.take maxColsFit
    let right_vals := packed.2.take maxColsFit
    let left_steps := left_steps0.take maxColsFit
    let right_steps := right_steps0.take maxColsFit
    let quads := zip4 left_vals right_vals left_steps right_steps
    let axis_char := if c.unicode then '─' else '-'
    let titleLines : List (List Char) :=
      match c.title with
      | some t =>
          if t = [] then []
          else
            sgr_wrap c.label_sgr (truncate_visible t cols) ::
              (if c.show_rule then
                [sgr_wrap c.axis_sgr
                  (List.replicate (min cols (max 10 (t.length : ℤ))).toNat
                    (if c.unicode then '─' else '-'))]
              else [])
      | none => []
    let posLines := rows_down.map (pos_row_line c denom forced y_w cols quads)
    let bottomLines : List (List Char) :=
      if negRows > 0 then
        (truncate_visible
          ((if c.show_y_axis then
              sgr_wrap c.label_sgr (rjust y_w (render_y_label c "zero".data 0 denom forced))
            else []) ++
            sgr_wrap c.axis_sgr (List.replicate left_vals.length axis_char)) cols) ::
          ((List.range negRows).map fun i =>
            neg_row_line c denom forced y_w cols quads (i + 1))
      else
        [truncate_visible
          ((if c.show_y_axis then List.replicate y_w ' ' else []) ++
            sgr_wrap c.axis_sgr (List.replicate left_vals.length axis_char)) cols]
    let body := titleLines ++ posLines ++ bottomLines
    List.intercalate ['\n']
      (add_border c.border_enabled c.border_sgr c.border_style_name body)

section ScannerEquations

lemma visLenAux_nil (m : Bool) : visLenAux m [] = 0 := by cases m <;> rfl

lemma visLenAux_true_cons (c : Char) (l : List Char) :
    visLenAux true (c :: l) =
      if c = 'm' then visLenAux false l else visLenAux true l := rfl

lemma visLenAux_false_esc_br (l : List Char) :
    visLenAux false ('\x1b' :: '[' :: l) = visLenAux true l := rfl

lemma visLenAux_false_cons_ne (c : Char) (l : List Char) (h : c ≠ '\x1b') :
    visLenAux false (c :: l) = 1 + visLenAux false l := by
  cases l with
  | nil => simp [visLenAux, h]
  | cons d l2 => simp [visLenAux, h]

lemma visLenAux_false_esc_ne (c : Char) (l : List Char) (h : c ≠ '[') :
    visLenAux false ('\x1b' :: c :: l) = 1 + visLenAux false (c :: l) := by
  simp [visLenAux, h]

lemma cleanAux_true_cons (c : Char) (l : List Char) :
    cleanAux true (c :: l) =
      if c = 'm' then cleanAux false l else cleanAux true l := rfl

lemma cleanAux_false_esc_br (l : List Char) :
    cleanAux false ('\x1b' :: '[' :: l) = cleanAux true l := rfl

lemma cleanAux_false_cons_ne (c : Char) (l : List Char) (h : c ≠ '\x1b') :
    cleanAux false (c :: l) = cleanAux false l := by
  cases l with
  | nil => simp [cleanAux, h]
  | cons d l2 => simp [cleanAux, h]

lemma cleanAux_false_esc (l : List Char) :
    cleanAux false ('\x1b' :: l) =
      match l with
      | '[' :: l2 => cleanAux true l2
      | _ => false := by
  cases l with
  | nil => rfl
  | cons d l2 =>
      by_cases h : d = '['
      · subst h; rfl
      · simp [cleanAux, h]

lemma wfAux_true_cons (c : Char) (l : List Char) :
    wfAux true (c :: l) =
      if c = 'm' then wfAux false l else wfAux true l := rfl

lemma wfAux_false_esc_br (l : List Char) :
    wfAux false ('\x1b' :: '[' :: l) = wfAux true l := rfl

lemma wfAux_false_cons_ne (c : Char) (l : List Char) (h : c ≠ '\x1b') :
    wfAux false (c :: l) = wfAux false l := by
  cases l with
  | nil => simp [wfAux, h]
  | cons d l2 => simp [wfAux, h]

lemma wfAux_false_esc_ne (c : Char) (l : List Char) (h : c ≠ '[') :
    wfAux false ('\x1b' :: c :: l) = wfAux false (c :: l) := by
  simp [wfAux, h]

lemma wfAux_false_esc_nil : wfAux false ['\x1b'] = true := by decide

lemma truncAux_nil (m : Option (List Char)) (b : ℕ) : truncAux m [] b = [] := by
  cases m <;> rfl

lemma truncAux_none_zero (c : Char) (l : List Char) :
    truncAux none (c :: l) 0 = [] := by
  rcases l with _ | ⟨d, l2⟩
  · by_cases h : c = '\x1b' <;> simp [truncAux, h]
  · by_cases h : c = '\x1b' <;> by_cases h2 : d = '[' <;> simp [truncAux, h, h2]

lemma truncAux_none_esc_br (l : List Char) (b : ℕ) :
    truncAux none ('\x1b' :: '[' :: l) (b + 1) =
      truncAux (some ['\x1b', '[']) l (b + 1) := rfl

lemma truncAux_none_cons_ne (c : Char) (l : List Char) (b : ℕ) (h : c ≠ '\x1b') :
    truncAux none (c :: l) (b + 1) = c :: truncAux none l b := by
  cases l with
  | nil => simp [truncAux, h]
  | cons d l2 => simp [truncAux, h]

lemma truncAux_none_esc_ne (c : Char) (l : List Char) (b : ℕ) (h : c ≠ '[') :
    truncAux none ('\x1b' :: c :: l) (b + 1) = '\x1b' :: truncAux none (c :: l) b := by
  simp [truncAux, h]

lemma truncAux_none_esc_nil (b : ℕ) :
    truncAux none ['\x1b'] (b + 1) = ['\x1b'] := by
  simp [truncAux]

lemma truncAux_some_cons (p : List Char) (c : Char) (l : List Char) (b : ℕ) :
    truncAux (some p) (c :: l) b =
      if c = 'm' then p ++ 'm' :: truncAux none l b
      else truncAux (some (p ++ [c])) l b := rfl

lemma cleanAux_false_esc_ne (c : Char) (l : List Char) (h : c ≠ '[') :
    cleanAux false ('\x1b' :: c :: l) = false := by
  simp [cleanAux, h]

end ScannerEquations

section ScannerLemmas

/-- Skipping mode never counts anything when the closing `'m'` is
missing. -/
lemma visLenAux_true_no_m (l : List Char) (h : 'm' ∉ l) :
    visLenAux true l = 0 := by
  induction l with
  | nil => rfl
  | cons c l ih =>
      rw [visLenAux_true_cons]
      have hc : ¬(c = 'm') := fun hc => h (hc ▸ List.mem_cons_self c l)
      rw [if_neg hc]
      exact ih fun hm => h (List.mem_cons_of_mem c hm)

/-- Skipping mode consumes exactly through the first `'m'`. -/
lemma visLenAux_true_append (p r : List Char) (h : 'm' ∉ p) :
    visLenAux true (p ++ 'm' :: r) = visLenAux false r := by
  induction p with
  | nil => simp [visLenAux_true_cons]
  | cons c p ih =>
      have hc : ¬(c = 'm') := fun hc => h (hc ▸ List.mem_cons_self c p)
      rw [List.cons_append, visLenAux_true_cons, if_neg hc]
      exact ih fun hm => h (List.mem_cons_of_mem c hm)

lemma cleanAux_true_append (p r : List Char) (h : 'm' ∉ p) :
    cleanAux true (p ++ 'm' :: r) = cleanAux false r := by
  induction p with
  | nil => simp [cleanAux_true_cons]
  | cons c p ih =>
      have hc : ¬(c = 'm') := fun hc => h (hc ▸ List.mem_cons_self c p)
      rw [List.cons_append, cleanAux_true_cons, if_neg hc]
      exact ih fun hm => h (List.mem_cons_of_mem c hm)

lemma wfAux_true_append (p r : List Char) (h : 'm' ∉ p) :
    wfAux true (p ++ 'm' :: r) = wfAux false r := by
  induction p with
  | nil => simp [wfAux_true_cons]
  | cons c p ih =>
      have hc : ¬(c = 'm') := fun hc => h (hc ▸ List.mem_cons_self c p)
      rw [List.cons_append, wfAux_true_cons, if_neg hc]
      exact ih fun hm => h (List.mem_cons_of_mem c hm)

lemma cleanAux_append_aux :
    ∀ (n : ℕ) (a : List Char), a.length ≤ n → ∀ (m : Bool) (b : List Char),
      cleanAux m a = true → cleanAux false b = true → cleanAux m (a ++ b) = true := by
  intro n
  induction n with
  | zero =>
      intro a ha m b h hb
      have : a = [] := List.eq_nil_of_length_eq_zero (Nat.le_zero.mp ha)
      subst this
      cases m
      · simpa using hb
      · exact absurd h (by decide)
  | succ n ih =>
      intro a ha m b h hb
      cases a with
      | nil =>
          cases m
          · simpa using hb
          · exact absurd h (by decide)
      | cons c a2 =>
          have ha2 : a2.length ≤ n := by
            simpa using Nat.lt_succ_iff.mp (Nat.lt_of_lt_of_le (by simp) ha)
          cases m with
          | true =>
              rw [cleanAux_true_cons] at h
              rw [List.cons_append, cleanAux_true_cons]
              by_cases hc : c = 'm'
              · rw [if_pos hc] at h ⊢
                exact ih a2 ha2 false b h hb
              · rw [if_neg hc] at h ⊢
                exact ih a2 ha2 true b h hb
          | false =>
              by_cases hc : c = '\x1b'
              · subst hc
                cases a2 with
                | nil => exact absurd h (by decide)
                | cons d a3 =>
                    by_cases hd : d = '['
                    · subst hd
                      rw [cleanAux_false_esc_br] at h
                      rw [List.cons_append, List.cons_append, cleanAux_false_esc_br]
                      have ha3 : a3.length ≤ n := by
                        simp only [List.length_cons] at ha2
                        omega
                      exact ih a3 ha3 true b h hb
                    · rw [cleanAux_false_esc_ne d a3 hd] at h
                      exact absurd h (by decide)
              · rw [cleanAux_false_cons_ne c a2 hc] at h
                rw [List.cons_append, cleanAux_false_cons_ne c _ hc]
                exact ih a2 ha2 false b h hb

/-- Strict well-formedness is preserved by concatenation. -/
lemma cleanAux_append (m : Bool) (a b : List Char)
    (h : cleanAux m a = true) (hb : cleanAux false b = true) :
    cleanAux m (a ++ b) = true :=
  cleanAux_append_aux a.length a le_rfl m b h hb

lemma visLen_append_aux :
    ∀ (n : ℕ) (a : List Char), a.length ≤ n → ∀ (m : Bool) (b : List Char),
      cleanAux m a = true →
      visLenAux m (a ++ b) = visLenAux m a + visLenAux false b := by
  intro n
  induction n with
  | zero =>
      intro a ha m b h
      have : a = [] := List.eq_nil_of_length_eq_zero (Nat.le_zero.mp ha)
      subst this
      cases m
      · simp [visLenAux_nil]
      · exact absurd h (by decide)
  | succ n ih =>
      intro a ha m b h
      cases a with
      | nil =>
          cases m
          · simp [visLenAux_nil]
          · exact absurd h (by decide)
      | cons c a2 =>
          have ha2 : a2.length ≤ n := by
            simpa using Nat.lt_succ_iff.mp (Nat.lt_of_lt_of_le (by simp) ha)
          cases m with
          | true =>
              rw [cleanAux_true_cons] at h
              rw [List.cons_append, visLenAux_true_cons, visLenAux_true_cons]
              by_cases hc : c = 'm'
              · rw [if_pos hc] at h ⊢; rw [if_pos hc]
                exact ih a2 ha2 false b h
              · rw [if_neg hc] at h ⊢; rw [if_neg hc]
                exact ih a2 ha2 true b h
          | false =>
              by_cases hc : c = '\x1b'
              · subst hc
                cases a2 with
                | nil => exact absurd h (by decide)
                | cons d a3 =>
                    by_cases hd : d = '['
                    · subst hd
                      rw [cleanAux_false_esc_br] at h
                      rw [List.cons_append, List.cons_append, visLenAux_false_esc_br,
                        visLenAux_false_esc_br]
                      have ha3 : a3.length ≤ n := by
                        simp only [List.length_cons] at ha2
                        omega
                      exact ih a3 ha3 true b h
                    · rw [cleanAux_false_esc_ne d a3 hd] at h
                      exact absurd h (by decide)
              · rw [cleanAux_false_cons_ne c a2 hc] at h
                rw [List.cons_append, visLenAux_false_cons_ne c _ hc,
                  visLenAux_false_cons_ne c _ hc]
                rw [ih a2 ha2 false b h]
                omega

/-- Visible length is additive over append when the left part is
strictly well-formed. -/
lemma visible_len_append (a b : List Char) (h : esc_clean a = true) :
    visible_len (a ++ b) = visible_len a + visible_len b :=
  visLen_append_aux a.length a le_rfl false b h

/-- Escape-free text is strictly well-formed. -/
lemma esc_clean_of_no_esc (l : List Char) (h : ∀ c ∈ l, c ≠ '\x1b') :
    esc_clean l = true := by
  induction l with
  | nil => rfl
  | cons c l ih =>
      have hc : c ≠ '\x1b' := h c (List.mem_cons_self c l)
      rw [esc_clean] at ih ⊢
      rw [cleanAux_false_cons_ne c l hc]
      exact ih fun d hd => h d (List.mem_cons_of_mem c hd)

/-- Escape-free text is its own visible length. -/
lemma visible_len_of_no_esc (l : List Char) (h : ∀ c ∈ l, c ≠ '\x1b') :
    visible_len l = l.length := by
  induction l with
  | nil => rfl
  | cons c l ih =>
      have hc : c ≠ '\x1b' := h c (List.mem_cons_self c l)
      rw [visible_len] at ih ⊢
      rw [visLenAux_false_cons_ne c l hc, ih fun d hd => h d (List.mem_cons_of_mem c hd)]
      simp [Nat.add_comm]

/-- An SGR parameter string is benign when it does not contain the
terminator `'m'` (true of every real SGR parameter string, which holds
only digits and semicolons). -/
def SgrOk (sgr : Option (List Char)) : Prop :=
  ∀ p, sgr = some p → 'm' ∉ p

lemma esc_clean_sgr_wrap (sgr : Option (List Char)) (t : List Char)
    (hs : SgrOk sgr) (ht : esc_clean t = true) :
    esc_clean (sgr_wrap sgr t) = true := by
  match sgr with
  | none => exact ht
  | some [] => exact ht
  | some (q :: p) =>
      show cleanAux false ('\x1b' :: '[' :: ((q :: p) ++ 'm' :: (t ++ ['\x1b', '[', '0', 'm']))) = true
      rw [cleanAux_false_esc_br, cleanAux_true_append _ _ (hs (q :: p) rfl)]
      exact cleanAux_append false t ['\x1b', '[', '0', 'm'] ht (by decide)

lemma visible_len_sgr_wrap (sgr : Option (List Char)) (t : List Char)
    (hs : SgrOk sgr) (ht : esc_clean t = true) :
    visible_len (sgr_wrap sgr t) = visible_len t := by
  match sgr with
  | none => rfl
  | some [] => rfl
  | some (q :: p) =>
      show visLenAux false ('\x1b' :: '[' :: ((q :: p) ++ 'm' :: (t ++ ['\x1b', '[', '0', 'm']))) = visible_len t
      rw [visLenAux_false_esc_br, visLenAux_true_append _ _ (hs (q :: p) rfl)]
      have := visible_len_append t ['\x1b', '[', '0', 'm'] ht
      rw [visible_len] at this
      rw [this]
      have h0 : visible_len ['\x1b', '[', '0', 'm'] = 0 := by decide
      omega

lemma foldl_max_init_le (l : List ℕ) (a : ℕ) : a ≤ l.foldl max a := by
  induction l generalizing a with
  | nil => exact le_rfl
  | cons c l ih => exact le_trans (le_max_left a c) (ih (max a c))

lemma le_foldl_max_of_mem (l : List ℕ) (a x : ℕ) (hx : x ∈ l) :
    x ≤ l.foldl max a := by
  induction l generalizing a with
  | nil => cases hx
  | cons c l ih =>
      rcases List.mem_cons.mp hx with h | h
      · subst h
        exact le_trans (le_max_right a x) (foldl_max_init_le l (max a x))
      · exact ih (max a c) h

lemma visible_len_cons_ne (c : Char) (l : List Char) (h : c ≠ '\x1b') :
    visible_len (c :: l) = 1 + visible_len l :=
  visLenAux_false_cons_ne c l h

lemma border_chars_ne_esc (name : List Char) :
    (border_chars name).tl ≠ '\x1b' ∧ (border_chars name).tr ≠ '\x1b' ∧
    (border_chars name).bl ≠ '\x1b' ∧ (border_chars name).br ≠ '\x1b' ∧
    (border_chars name).h ≠ '\x1b' ∧ (border_chars name).v ≠ '\x1b' := by
  unfold border_chars
  split_ifs <;>
    exact ⟨by decide, by decide, by decide, by decide, by decide, by decide⟩

/-- A top/bottom border rule has visible length `n + 2`. -/
lemma visible_len_border_rule (sgr : Option (List Char)) (hs : SgrOk sgr)
    (a b hch : Char) (n : ℕ) (ha : a ≠ '\x1b') (hb : b ≠ '\x1b')
    (hh : hch ≠ '\x1b') :
    visible_len (sgr_wrap sgr (a :: (List.replicate n hch ++ [b]))) = n + 2 := by
  have hn : ∀ c ∈ a :: (List.replicate n hch ++ [b]), c ≠ '\x1b' := by
    intro c hc
    rcases List.mem_cons.mp hc with h | h
    · exact h ▸ ha
    · rcases List.mem_append.mp h with h | h
      · exact (List.eq_of_mem_replicate h) ▸ hh
      · rcases List.mem_singleton.mp h with h
        exact h ▸ hb
  rw [visible_len_sgr_wrap sgr _ hs (esc_clean_of_no_esc _ hn),
    visible_len_of_no_esc _ hn]
  simp

/-- A bordered interior line has visible length
`visible_len ln + pad + 4`. -/
lemma visible_len_border_interior (sgr : Option (List Char)) (hs : SgrOk sgr)
    (vch : Char) (hv : vch ≠ '\x1b') (ln : List Char)
    (hln : esc_clean ln = true) (pad : ℕ) :
    visible_len
        (sgr_wrap sgr [vch] ++
          ' ' :: (ln ++ (List.replicate pad ' ' ++ ' ' :: sgr_wrap sgr [vch]))) =
      visible_len ln + pad + 4 := by
  have hv1 : esc_clean [vch] = true := by
    apply esc_clean_of_no_esc
    intro c hc
    rw [List.mem_singleton] at hc
    exact hc ▸ hv
  have hcleanv : esc_clean (sgr_wrap sgr [vch]) = true :=
    esc_clean_sgr_wrap _ _ hs hv1
  have hlenv : visible_len (sgr_wrap sgr [vch]) = 1 := by
    rw [visible_len_sgr_wrap _ _ hs hv1]
    rw [visible_len_of_no_esc]
    · rfl
    · intro c hc
      rw [List.mem_singleton] at hc
      exact hc ▸ hv
  have hrep : ∀ c ∈ List.replicate pad ' ', c ≠ '\x1b' := by
    intro c hc
    rw [List.eq_of_mem_replicate hc]
    decide
  rw [visible_len_append _ _ hcleanv, hlenv,
    visible_len_cons_ne ' ' _ (by decide),
    visible_len_append ln _ hln,
    visible_len_append _ _ (esc_clean_of_no_esc _ hrep),
    visible_len_of_no_esc _ hrep,
    visible_len_cons_ne ' ' _ (by decide), hlenv,
    List.length_replicate]
  omega

end ScannerLemmas

/-- C3: with the border enabled and any non-empty content-line list whose
lines carry only complete embedded SGR sequences, every line of the
bordered output has the same visible length, namely the maximum visible
content width plus 4 (left border glyph, two padding spaces, right
border glyph). -/
theorem C3_border_rectangular (sgr : Option (List Char)) (styleName : List Char)
    (lines : List (List Char)) (hne : lines ≠ [])
    (hclean : ∀ ln ∈ lines, esc_clean ln = true) (hs : SgrOk sgr) :
    ∀ l ∈ add_border true sgr styleName lines,
      visible_len l = (lines.map visible_len).foldl max 0 + 4 := by
  intro l hl
  obtain ⟨h1, h2, h3, h4, h5, h6⟩ := border_chars_ne_esc styleName
  rw [add_border, if_neg (by simp [hne])] at hl
  simp only at hl
  rcases List.mem_cons.mp hl with hl | hl
  · subst hl
    have := visible_len_border_rule sgr hs _ _ _
      ((lines.map visible_len).foldl max 0 + 2) h1 h2 h5
    omega
  · rcases List.mem_append.mp hl with hl | hl
    · obtain ⟨ln, hmem, hln⟩ := List.mem_map.mp hl
      subst hln
      have hlnle : visible_len ln ≤ (lines.map visible_len).foldl max 0 :=
        le_foldl_max_of_mem _ 0 _ (List.mem_map_of_mem visible_len hmem)
      rw [visible_len_border_interior sgr hs _ h6 ln (hclean ln hmem) _]
      omega
    · rw [List.mem_singleton] at hl
      subst hl
      have := visible_len_border_rule sgr hs _ _ _
        ((lines.map visible_len).foldl max 0 + 2) h3 h4 h5
      omega

section EscapeSafety

/-- A text made of complete SGR sequences interleaved with ordinary
characters, in segment form. -/
inductive Seg where
  | lit (c : Char)
  | sgr (params : List Char)

/-- Flatten one segment to characters. -/
def Seg.render : Seg → List Char
  | .lit c => [c]
  | .sgr p => '\x1b' :: '[' :: (p ++ ['m'])

/-- Flatten a segment list to a text. -/
def renderSegs : List Seg → List Char
  | [] => []
  | s :: rest => s.render ++ renderSegs rest

/-- A benign segment: an ordinary (non-escape) character, or a complete
SGR sequence whose parameter part does not contain the terminator. -/
def SegGood : Seg → Prop
  | .lit c => c ≠ '\x1b'
  | .sgr p => 'm' ∉ p

instance : DecidablePred SegGood := fun s => by
  cases s with
  | lit c => exact inferInstanceAs (Decidable (c ≠ '\x1b'))
  | sgr p => exact inferInstanceAs (Decidable ('m' ∉ p))

/-- The number of non-escape (ordinary) characters of a segment list. -/
def litCount : List Seg → ℕ
  | [] => 0
  | .lit _ :: rest => 1 + litCount rest
  | .sgr _ :: rest => litCount rest

/-- `_visible_len` counts exactly the non-escape characters of a text
containing complete SGR sequences. -/
lemma visible_len_renderSegs (segs : List Seg) (h : ∀ sg ∈ segs, SegGood sg) :
    visible_len (renderSegs segs) = litCount segs := by
  induction segs with
  | nil => rfl
  | cons s rest ih =>
      have hrest := fun sg hsg => h sg (List.mem_cons_of_mem s hsg)
      cases s with
      | lit c =>
          have hc : c ≠ '\x1b' := h _ (List.mem_cons_self _ _)
          show visible_len (c :: renderSegs rest) = 1 + litCount rest
          rw [visible_len_cons_ne c _ hc, ih hrest]
      | sgr p =>
          have hp : 'm' ∉ p := h _ (List.mem_cons_self _ _)
          show visLenAux false ('\x1b' :: '[' :: ((p ++ ['m']) ++ renderSegs rest)) = litCount rest
          rw [List.append_assoc, List.singleton_append, visLenAux_false_esc_br,
            visLenAux_true_append p _ hp]
          exact ih hrest

lemma truncAux_some_head (l : List Char) : ∀ (mid : List Char) (b : ℕ),
    truncAux (some ('\x1b' :: '[' :: mid)) l b = [] ∨
    ∃ t, truncAux (some ('\x1b' :: '[' :: mid)) l b = '\x1b' :: t := by
  induction l with
  | nil => intro mid b; left; exact truncAux_nil _ _
  | cons c rest ih =>
      intro mid b
      rw [truncAux_some_cons]
      by_cases hc : c = 'm'
      · right
        rw [if_pos hc]
        exact ⟨_, rfl⟩
      · rw [if_neg hc]
        simpa using ih (mid ++ [c]) b

lemma truncAux_none_head (l : List Char) (b : ℕ) :
    truncAux none l b = [] ∨ (truncAux none l b).head? = l.head? := by
  cases l with
  | nil => left; rfl
  | cons c rest =>
      cases b with
      | zero => left; exact truncAux_none_zero c rest
      | succ b =>
          by_cases hc : c = '\x1b'
          · subst hc
            cases rest with
            | nil => right; rw [truncAux_none_esc_nil]
            | cons d rest2 =>
                by_cases hd : d = '['
                · subst hd
                  rw [truncAux_none_esc_br]
                  rcases truncAux_some_head rest2 [] (b + 1) with h | ⟨t, ht⟩
                  · left; exact h
                  · right; rw [ht]; rfl
                · rw [truncAux_none_esc_ne d rest2 b hd]
                  right; rfl
          · rw [truncAux_none_cons_ne c rest b hc]
            right; rfl

lemma truncAux_wf_aux : ∀ (n : ℕ) (l : List Char), l.length ≤ n →
    (∀ b, wfAux false (truncAux none l b) = true) ∧
    (∀ b mid, 'm' ∉ mid →
      wfAux false (truncAux (some ('\x1b' :: '[' :: mid)) l b) = true) := by
  intro n
  induction n with
  | zero =>
      intro l hl
      have : l = [] := List.eq_nil_of_length_eq_zero (Nat.le_zero.mp hl)
      subst this
      exact ⟨fun b => by rw [truncAux_nil]; rfl, fun b mid _ => by rw [truncAux_nil]; rfl⟩
  | succ n ih =>
      intro l hl
      cases l with
      | nil =>
          exact ⟨fun b => by rw [truncAux_nil]; rfl, fun b mid _ => by rw [truncAux_nil]; rfl⟩
      | cons c rest =>
          have hrest : rest.length ≤ n := by
            simp only [List.length_cons] at hl
            omega
          constructor
          · intro b
            cases b with
            | zero => rw [truncAux_none_zero]; rfl
            | succ b =>
                by_cases hc : c = '\x1b'
                · subst hc
                  cases rest with
                  | nil => rw [truncAux_none_esc_nil]; decide
                  | cons d rest2 =>
                      by_cases hd : d = '['
                      · subst hd
                        rw [truncAux_none_esc_br]
                        have hr2 : rest2.length ≤ n := by
                          simp only [List.length_cons] at hl
                          omega
                        exact (ih rest2 hr2).2 (b + 1) [] (by decide)
                      · rw [truncAux_none_esc_ne d rest2 b hd]
                        rcases hout : truncAux none (d :: rest2) b with _ | ⟨e, out2⟩
                        · exact wfAux_false_esc_nil
                        · rcases truncAux_none_head (d :: rest2) b with h0 | h0
                          · rw [hout] at h0; cases h0
                          · rw [hout] at h0
                            simp only [List.head?_cons] at h0
                            have he : e ≠ '[' := by
                              intro hbad
                              exact hd (by injection h0 with h0; rw [← h0, hbad])
                            rw [wfAux_false_esc_ne e out2 he, ← hout]
                            exact (ih (d :: rest2) hrest).1 b
                · rw [truncAux_none_cons_ne c rest b hc,
                    wfAux_false_cons_ne c _ hc]
                  exact (ih rest hrest).1 b
          · intro b mid hmid
            rw [truncAux_some_cons]
            by_cases hc : c = 'm'
            · rw [if_pos hc]
              show wfAux false
                ('\x1b' :: '[' :: (mid ++ 'm' :: truncAux none rest b)) = true
              rw [wfAux_false_esc_br, wfAux_true_append mid _ hmid]
              exact (ih rest hrest).1 b
            · rw [if_neg hc]
              have hmid2 : 'm' ∉ mid ++ [c] := by
                intro hbad
                rcases List.mem_append.mp hbad with hbad | hbad
                · exact hmid hbad
                · exact hc (List.mem_singleton.mp hbad).symm
              exact (ih rest hrest).2 b (mid ++ [c]) hmid2

/-- `truncate_visible` only ever emits complete SGR sequences. -/
lemma esc_wf_truncate (s : List Char) (maxCols : ℤ) :
    esc_wf (truncate_visible s maxCols) = true := by
  rw [truncate_visible]
  split
  · rfl
  · exact (truncAux_wf_aux s.length s le_rfl).1 _

end EscapeSafety

example : visible_len ['a', '\x1b', '[', '3', '1', 'm', 'b'] = 2 := by decide
example : visible_len ['a', '\x1b', '[', '3', '1'] = 1 := by decide
example : visible_len ['\x1b'] = 1 := by decide
example : truncate_visible ['a', 'b', 'c'] 2 = ['a', 'b'] := by decide
example : truncate_visible ['\x1b', '[', '3', 'm', 'b', 'c'] 1 = ['\x1b', '[', '3', 'm', 'b'] := by decide
example : truncate_visible ['a', '\x1b', '[', '3'] 5 = ['a'] := by decide
example : truncate_visible ['a'] 0 = [] := by decide
example : esc_wf ['\x1b', '[', '3'] = false := by decide
example : esc_clean ['\x1b'] = false := by decide
example : esc_wf ['\x1b'] = true := by decide

section NumericLemmas

lemma pyRound_intCast (n : ℤ) : pyRound (n : ℚ) = n := by
  simp only [pyRound, Int.floor_intCast, sub_self]
  norm_num

lemma pyRound_bounds (q : ℚ) : ⌊q⌋ ≤ pyRound q ∧ pyRound q ≤ ⌊q⌋ + 1 := by
  simp only [pyRound]
  split_ifs <;> omega

lemma clamp_int_mem (x lo hi : ℤ) (h : lo ≤ hi) :
    lo ≤ clamp_int x lo hi ∧ clamp_int x lo hi ≤ hi := by
  simp only [clamp_int]
  split_ifs <;> omega

lemma clamp_int_of_ge (x lo hi : ℤ) (h : lo ≤ hi) (hx : hi ≤ x) :
    clamp_int x lo hi = hi := by
  simp only [clamp_int]
  split_ifs <;> omega

lemma clamp_int_of_le (x lo hi : ℤ) (h : lo ≤ hi) (hx : x ≤ lo) :
    clamp_int x lo hi = lo := by
  simp only [clamp_int]
  split_ifs <;> omega

end NumericLemmas

section StepLemmas

/-- The step conversion always lands in `[-20, 20]`. -/
lemma to_signed_steps_range (c : Chart) (v d : ℚ) :
    -20 ≤ to_signed_steps_5pct c v d ∧ to_signed_steps_5pct c v d ≤ 20 := by
  simp only [to_signed_steps_5pct]
  split
  · exact ⟨by norm_num, by norm_num⟩
  · exact clamp_int_mem _ _ _ (by norm_num)

/-- With clamping enabled, `value = denom > 0` yields step 20. -/
lemma to_signed_steps_at_denom (c : Chart) (denom : ℚ) (hd : 0 < denom)
    (hc : c.clamp_to_100 = true) :
    to_signed_steps_5pct c denom denom = 20 := by
  simp only [to_signed_steps_5pct, hc, if_true, if_neg (not_le.mpr hd)]
  rw [div_self (ne_of_gt hd)]
  norm_num
  have h20 : (20 : ℚ) = ((20 : ℤ) : ℚ) := by norm_num
  rw [h20, pyRound_intCast]
  decide

/-- With clamping enabled, `value = -denom`, `denom > 0` yields
step -20. -/
lemma to_signed_steps_at_neg_denom (c : Chart) (denom : ℚ) (hd : 0 < denom)
    (hc : c.clamp_to_100 = true) :
    to_signed_steps_5pct c (-denom) denom = -20 := by
  simp only [to_signed_steps_5pct, hc, if_true, if_neg (not_le.mpr hd)]
  rw [neg_div, div_self (ne_of_gt hd)]
  norm_num
  have h20 : (-20 : ℚ) = ((-20 : ℤ) : ℚ) := by norm_num
  rw [h20, pyRound_intCast]
  decide

end StepLemmas

/-- A chart value with every configuration field at its default
(`clamp_to_100 = True`, unicode on, axis on, no styling). -/
def chartDefault : Chart := { values := [] }

/-- C1: for every value and every denominator the signed step lies in
`[-20, 20]`; with clamping enabled and a positive denominator,
`value = denom` yields step `20` and `value = -denom` yields `-20`. -/
theorem C1_step_clamp (c : Chart) (denom : ℚ) (hd : 0 < denom)
    (hc : c.clamp_to_100 = true) :
    (∀ (c2 : Chart) (v d : ℚ),
      -20 ≤ to_signed_steps_5pct c2 v d ∧ to_signed_steps_5pct c2 v d ≤ 20) ∧
    to_signed_steps_5pct c denom denom = 20 ∧
    to_signed_steps_5pct c (-denom) denom = -20 :=
  ⟨fun c2 v d => to_signed_steps_range c2 v d,
    to_signed_steps_at_denom c denom hd hc,
    to_signed_steps_at_neg_denom c denom hd hc⟩

theorem C1_step_clamp_witness :
    (∀ (c2 : Chart) (v d : ℚ),
      -20 ≤ to_signed_steps_5pct c2 v d ∧ to_signed_steps_5pct c2 v d ≤ 20) ∧
    to_signed_steps_5pct chartDefault 4 4 = 20 ∧
    to_signed_steps_5pct chartDefault (-4) 4 = -20 :=
  C1_step_clamp chartDefault 4 (by norm_num) rfl

/-- C2: `truncate_visible` never emits a truncated/partial SGR escape
sequence (for every input); `_visible_len` of a text of complete SGR
sequences and ordinary characters equals its count of non-escape
characters; a non-positive column budget yields the empty result. -/
theorem C2_escape_safety (s : List Char) (maxCols : ℤ) (segs : List Seg)
    (h : ∀ sg ∈ segs, SegGood sg) :
    esc_wf (truncate_visible s maxCols) = true ∧
    visible_len (renderSegs segs) = litCount segs ∧
    (maxCols ≤ 0 → truncate_visible s maxCols = []) := by
  refine ⟨esc_wf_truncate s maxCols, visible_len_renderSegs segs h, fun hneg => ?_⟩
  rw [truncate_visible, if_pos hneg]

theorem C2_escape_safety_witness :
    esc_wf (truncate_visible ['a', '\x1b', '[', '3', '1', 'm', 'b'] (-1)) = true ∧
    visible_len (renderSegs [Seg.lit 'a', Seg.sgr ['3', '1'], Seg.lit 'b']) =
      litCount [Seg.lit 'a', Seg.sgr ['3', '1'], Seg.lit 'b'] ∧
    ((-1 : ℤ) ≤ 0 → truncate_visible ['a', '\x1b', '[', '3', '1', 'm', 'b'] (-1) = []) :=
  C2_escape_safety ['a', '\x1b', '[', '3', '1', 'm', 'b'] (-1)
    [Seg.lit 'a', Seg.sgr ['3', '1'], Seg.lit 'b'] (by decide)

/-- C4: with a positive denominator, the step conversion gives the same
result with the percentage clamp on or off — the unconditional final
step clamp to `[-20, 20]` makes the flag invisible. -/
theorem C4_clamp_flag_no_effect (c : Chart) (value denom : ℚ) (hd : 0 < denom) :
    to_signed_steps_5pct { c with clamp_to_100 := true } value denom =
      to_signed_steps_5pct { c with clamp_to_100 := false } value denom := by
  have hd2 := not_le.mpr hd
  simp only [to_signed_steps_5pct, if_neg hd2]
  simp only [show (true = true) = True from by simp,
    show (false = true) = False from by simp, if_true, if_false]
  rcases le_or_lt (value / denom * 100) 100 with h100 | h100
  · rcases le_or_lt (-100 : ℚ) (value / denom * 100) with hm | hm
    · rw [min_eq_right h100, max_eq_right hm]
    · rw [min_eq_right h100, max_eq_left (le_of_lt hm)]
      have hL : (-100 : ℚ) / 5 = ((-20 : ℤ) : ℚ) := by norm_num
      rw [hL, pyRound_intCast]
      have hp5 : value / denom * 100 / 5 < -20 := by linarith
      have hfl : ⌊value / denom * 100 / 5⌋ ≤ -21 := by
        have h1 : (⌊value / denom * 100 / 5⌋ : ℚ) < -20 :=
          lt_of_le_of_lt (Int.floor_le _) hp5
        have h2 : ⌊value / denom * 100 / 5⌋ < -20 := by exact_mod_cast h1
        omega
      have hb := pyRound_bounds (value / denom * 100 / 5)
      rw [clamp_int_of_le _ _ _ (by norm_num) (by omega),
        clamp_int_of_le _ _ _ (by norm_num) (by omega)]
  · rw [min_eq_left (le_of_lt h100),
      max_eq_right (show (-100 : ℚ) ≤ 100 by norm_num)]
    have hL : (100 : ℚ) / 5 = ((20 : ℤ) : ℚ) := by norm_num
    rw [hL, pyRound_intCast]
    have hp5 : (20 : ℚ) < value / denom * 100 / 5 := by linarith
    have hfl : 20 ≤ ⌊value / denom * 100 / 5⌋ := by
      rw [Int.le_floor]
      push_cast
      exact le_of_lt hp5
    have hb := pyRound_bounds (value / denom * 100 / 5)
    rw [clamp_int_of_ge _ _ _ (by norm_num) (by omega),
      clamp_int_of_ge _ _ _ (by norm_num) (by omega)]

theorem C4_clamp_flag_no_effect_witness :
    to_signed_steps_5pct { chartDefault with clamp_to_100 := true } 250 3 =
      to_signed_steps_5pct { chartDefault with clamp_to_100 := false } 250 3 :=
  C4_clamp_flag_no_effect chartDefault 250 3 (by norm_num)

/-- C5 counterexample: with values `[5]` and the non-positive explicit
denominator `-2`, the code resolves the denominator to `1.0` — it does
not fall through to the data's max-abs `5`. -/
theorem C5_denominator_counterexample :
    resolve_denom (some (-2)) [5] = 1 ∧
    resolve_denom (some (-2)) [5] ≠ maxAbs [5] := by
  constructor
  · rfl
  · intro h
    have h1 : resolve_denom (some (-2)) [5] = 1 := rfl
    have h5 : maxAbs [5] = 5 := rfl
    rw [h1, h5] at h
    exact absurd h (by norm_num)

/-- C5 amended: a supplied non-positive denominator is floored directly
to `1.0` (same floor as a non-positive resolved denominator); it is not
replaced by the maximum absolute input value. -/
theorem C5_denominator_amended (m : ℚ) (vals : List ℚ) (h : m ≤ 0) :
    resolve_denom (some m) vals = 1 := by
  simp only [resolve_denom]
  rw [if_pos h]

theorem C5_denominator_amended_witness :
    resolve_denom (some (-2)) [5, 3] = 1 :=
  C5_denominator_amended (-2) [5, 3] (by norm_num)

/-- The C6 scenario chart: values `[100, -100]`, default configuration,
explicit 80-column width. -/
def chart6 : Chart := { values := [100, -100], width := some 80 }

/-- The denominator the renderer resolves for the C6 scenario. -/
def chart6_denom : ℚ := resolve_denom chart6.max_value chart6.values

/-- The concatenated left/right quantized steps of the C6 scenario
(`left_steps_total + right_steps_total` of `__str__`). -/
def chart6_steps : List ℤ :=
  ((pack_pairs chart6.values).1 ++ (pack_pairs chart6.values).2).map
    (fun v => to_signed_steps_5pct chart6 v chart6_denom)

lemma chart6_denom_eq : chart6_denom = 100 := by decide

lemma chart6_steps_eq : chart6_steps = [20, -20] := by
  show [to_signed_steps_5pct chart6 100 chart6_denom,
    to_signed_steps_5pct chart6 (-100) chart6_denom] = [20, -20]
  rw [chart6_denom_eq]
  rw [to_signed_steps_at_denom chart6 100 (by norm_num) rfl]
  rw [show ((-100 : ℚ)) = -(100 : ℚ) from by norm_num,
    to_signed_steps_at_neg_denom chart6 100 (by norm_num) rfl]

/-- C6 counterexample: the scenario `[100, -100]` quantizes to steps
`[20, -20]`, so the bottom region has `ceil(20/2) = 10` negative rows,
not 1 as claimed. -/
theorem C6_scenario_counterexample :
    chart6_steps = [20, -20] ∧
    neg_rows_count chart6_steps = 10 ∧
    neg_rows_count chart6_steps ≠ 1 := by
  have h := chart6_steps_eq
  refine ⟨h, ?_, ?_⟩
  · rw [h]; decide
  · rw [h]; decide

/-- C6 amended: in the `[100, -100]` scenario the effective width is 80,
the steps are `[20, -20]`, the top positive row (row 10) shows `'▌'`
(left full, right empty), and the bottom region has 10 negative rows
whose topmost (row 1) shows `'▐'` (right full top-biased, left empty). -/
theorem C6_scenario_amended :
    term_cols chart6 0 = 80 ∧
    chart6_steps = [20, -20] ∧
    pos_cell_glyph chart6 20 (-20) 10 = '▌' ∧
    neg_rows_count chart6_steps = 10 ∧
    neg_cell_glyph chart6 20 (-20) 1 = '▐' := by
  have h := chart6_steps_eq
  refine ⟨by decide, h, by decide, ?_, by decide⟩
  rw [h]; decide

section NegRowLemmas

lemma foldl_negmax_init_le (l : List ℤ) (a : ℤ) :
    a ≤ l.foldl (fun acc s => if s < 0 then max acc (-s) else acc) a := by
  induction l generalizing a with
  | nil => exact le_rfl
  | cons c l ih =>
      refine le_trans ?_ (ih _)
      dsimp only
      split
      · exact le_max_left _ _
      · exact le_rfl

lemma max_neg_steps_nonneg (steps : List ℤ) : 0 ≤ max_neg_steps steps :=
  foldl_negmax_init_le steps 0

lemma le_foldl_negmax : ∀ (l : List ℤ) (s : ℤ), s ∈ l → s < 0 →
    ∀ a : ℤ, -s ≤ l.foldl (fun acc t => if t < 0 then max acc (-t) else acc) a := by
  intro l
  induction l with
  | nil => intro s hs; cases hs
  | cons c l ih =>
      intro s hs hneg a
      rw [List.foldl_cons]
      rcases List.mem_cons.mp hs with h | h
      · subst h
        refine le_trans ?_ (foldl_negmax_init_le l _)
        dsimp only
        rw [if_pos hneg]
        exact le_max_right _ _
      · exact ih s h hneg _

lemma le_max_neg_steps (steps : List ℤ) (s : ℤ) (hs : s ∈ steps) (hneg : s < 0) :
    -s ≤ max_neg_steps steps :=
  le_foldl_negmax steps s hs hneg 0

lemma max_neg_steps_of_nonneg (steps : List ℤ) (h : ∀ s ∈ steps, 0 ≤ s) :
    max_neg_steps steps = 0 := by
  rw [max_neg_steps]
  induction steps with
  | nil => rfl
  | cons c l ih =>
      rw [List.foldl_cons]
      have hc : ¬(c < 0) := not_lt.mpr (h c (List.mem_cons_self _ _))
      rw [if_neg hc]
      exact ih fun s hs => h s (List.mem_cons_of_mem c hs)

lemma int_ceil_half (m : ℤ) : ⌈(m : ℚ) / 2⌉ = (m + 1) / 2 := by
  rcases Int.even_or_odd m with ⟨k, hk⟩ | ⟨k, hk⟩
  · subst hk
    have hcast : ((k + k : ℤ) : ℚ) / 2 = ((k : ℤ) : ℚ) := by push_cast; ring
    rw [hcast, Int.ceil_intCast]
    omega
  · subst hk
    have hceil : ⌈((2 * k + 1 : ℤ) : ℚ) / 2⌉ = k + 1 := by
      rw [Int.ceil_eq_iff]
      constructor
      · push_cast
        linarith
      · push_cast
        linarith
    rw [hceil]
    omega

end NegRowLemmas

/-- C7: the rendered negative-row count is `ceil(m / 2)` where `m` is
the largest magnitude among negative quantized steps (an upper bound for
every negative step); it is 0 when no step is negative; and a value of
`-83%` of the denominator quantizes to step `-17`, giving 9 rows. -/
lemma to_signed_steps_m83 :
    to_signed_steps_5pct chartDefault (-83) 100 = -17 := by
  simp only [to_signed_steps_5pct]
  rw [if_neg (by norm_num)]
  have h1 : (-83 : ℚ) / 100 * 100 = -83 := by norm_num
  have hcl : chartDefault.clamp_to_100 = true := rfl
  rw [hcl, if_pos rfl, h1]
  rw [min_eq_right (by norm_num), max_eq_right (by norm_num)]
  have hf : ⌊(-83 : ℚ) / 5⌋ = -17 := by
    rw [Int.floor_eq_iff]
    constructor
    · norm_num
    · norm_num
  have hr : pyRound ((-83 : ℚ) / 5) = -17 := by
    simp only [pyRound, hf]
    rw [if_pos (by norm_num)]
  rw [hr]
  decide

theorem C7_negative_row_count (steps : List ℤ) :
    (neg_rows_count steps : ℤ) = ⌈(max_neg_steps steps : ℚ) / 2⌉ ∧
    (∀ s ∈ steps, s < 0 → -s ≤ max_neg_steps steps) ∧
    ((∀ s ∈ steps, 0 ≤ s) → neg_rows_count steps = 0) ∧
    to_signed_steps_5pct chartDefault (-83) 100 = -17 ∧
    neg_rows_count [-17] = 9 := by
  refine ⟨?_, le_max_neg_steps steps, fun h => ?_, to_signed_steps_m83, by decide⟩
  · rw [int_ceil_half, neg_rows_count]
    have hm := max_neg_steps_nonneg steps
    rw [Int.toNat_of_nonneg (Int.ediv_nonneg (by omega) (by norm_num))]
  · rw [neg_rows_count, max_neg_steps_of_nonneg steps h]
    decide

theorem C7_negative_row_count_witness : neg_rows_count [3, 4] = 0 :=
  (C7_negative_row_count [3, 4]).2.2.1 (by decide)

/-- C8: an empty value sequence renders to the fixed placeholder text,
regardless of every other configuration field. -/
theorem C8_empty_input (c : Chart) (envCols : ℤ) (h : c.values = []) :
    render c envCols = "(no data)".data := by
  rw [render, if_pos h]

/-- An empty-data chart with several non-default configuration fields,
for the C8 witness. -/
def chart8 : Chart := { values := [], title := some "t".data, border_enabled := true, border_sgr := some ['3', '1'], unicode := false }

theorem C8_empty_input_witness : render chart8 80 = "(no data)".data :=
  C8_empty_input chart8 80 rfl

/-- C9 counterexample: in `"a" + ESC [ 3 1` the four characters of the
malformed trailing escape are skipped entirely by `_visible_len` — they
are not counted as literal characters (which would give length 5). -/
theorem C9_malformed_counterexample :
    visible_len ['a', '\x1b', '[', '3', '1'] = 1 ∧
    visible_len ['a', '\x1b', '[', '3', '1'] ≠ 1 + 4 := by
  exact ⟨by decide, by decide⟩

/-- C9 amended: `_visible_len` skips complete `ESC [ ... m` sequences; a
trailing `ESC [` opener never closed by `'m'` causes everything from the
opener on to be skipped (contributing 0); a lone `ESC` not followed by
`'['` is counted as a literal character. -/
theorem C9_visible_len_amended (pre tail p r : List Char)
    (h1 : esc_clean pre = true) (h2 : 'm' ∉ tail) (h3 : 'm' ∉ p) :
    visible_len (pre ++ '\x1b' :: '[' :: tail) = visible_len pre ∧
    visible_len ('\x1b' :: '[' :: (p ++ 'm' :: r)) = visible_len r ∧
    visible_len ['\x1b'] = 1 := by
  refine ⟨?_, ?_, by decide⟩
  · rw [visible_len_append pre _ h1]
    have hz : visible_len ('\x1b' :: '[' :: tail) = 0 := by
      show visLenAux false _ = 0
      rw [visLenAux_false_esc_br]
      exact visLenAux_true_no_m tail h2
    rw [hz]
    omega
  · show visLenAux false _ = _
    rw [visLenAux_false_esc_br, visLenAux_true_append p r h3]
    rfl

theorem C9_visible_len_amended_witness :
    visible_len (['a'] ++ '\x1b' :: '[' :: ['3', '1']) = visible_len ['a'] ∧
    visible_len ('\x1b' :: '[' :: (['0'] ++ 'm' :: ['x'])) = visible_len ['x'] ∧
    visible_len ['\x1b'] = 1 :=
  C9_visible_len_amended ['a'] ['3', '1'] ['0'] ['x'] (by decide) (by decide) (by decide)

/-- C10: an explicitly supplied width is floored to 20 — the effective
column count is `max 20 w`, the same floor applied to the terminal-query
default when no width is supplied. -/
theorem C10_width_floor (c : Chart) (envCols w : ℤ) (h : c.width = some w) :
    term_cols c envCols = max 20 w ∧
    (w < 20 → term_cols c envCols = 20) ∧
    (∀ (c2 : Chart), c2.width = none → ∀ e : ℤ, term_cols c2 e = max 20 e) := by
  refine ⟨by simp only [term_cols, h], fun hw => ?_, fun c2 h2 e => by simp only [term_cols, h2]⟩
  simp only [term_cols, h]
  omega

theorem C10_width_floor_witness :
    term_cols { chartDefault with width := some 10 } 80 = max 20 10 ∧
    ((10 : ℤ) < 20 → term_cols { chartDefault with width := some 10 } 80 = 20) ∧
    (∀ (c2 : Chart), c2.width = none → ∀ e : ℤ, term_cols c2 e = max 20 e) :=
  C10_width_floor { chartDefault with width := some 10 } 80 10 rfl

/-- Concrete line list for the C3 witness: one plain line and one longer
line carrying an embedded SGR sequence. -/
def borderDemoLines : List (List Char) :=
  [['a'], ['\x1b', '[', '3', '1', 'm', 'b', 'c']]

theorem C3_border_rectangular_witness :
    visible_len (List.headI (add_border true (some ['3', '1']) "single".data borderDemoLines)) =
      (borderDemoLines.map visible_len).foldl max 0 + 4 :=
  C3_border_rectangular (some ['3', '1']) "single".data borderDemoLines
    (by decide) (by decide) (fun p hp => by injection hp with hp; subst hp; decide)
    _ (by decide)
